import Mathlib

/-!
Verification of the hybrid retrieval pipeline
(`workflows/nodes/retrieval.py`, `core/embeddings/reranker.py`,
`core/database/vector_store.py`).

Candidates are Python dicts with possibly-missing keys; they are embedded as a
structure whose optional fields are `Option`-valued (`none` = key absent).
Scores are embedded as `ℚ`; the pipeline's score arithmetic is the exact
arithmetic mean `(a + b) / 2` and order comparisons, both of which `ℚ`
represents faithfully.
-/

namespace RawJJS

/-- A retrieval candidate, mirroring the result dicts built in
`RetrievalNode.search_postgres`, `VectorStoreManager.search_documents` and
mutated by `RetrievalNode.combine_results` / `BGEReranker.rerank_with_metadata`.
`none` models an absent dict key. -/
structure Candidate where
  id : String
  title : Option String := none
  content : Option String := none
  document_type : Option String := none
  category : Option String := none
  source : Option String := none
  document : Option String := none
  metadata : Option String := none
  score : ℚ := 0
  search_type : Option String := none
  vector_score : Option ℚ := none
  combined_score : Option ℚ := none
  rerank_score : Option ℚ := none
deriving DecidableEq, Repr

/-- The formatted result dict built in `RetrievalNode.finalize_results`. -/
structure FinalResult where
  rank : Nat
  id : String
  title : String
  content_preview : String
  full_content : String
  document_type : String
  category : String
  source : String
  relevance_score : ℚ
  search_type : String
deriving DecidableEq, Repr

/-- The `RetrievalState` TypedDict of `workflows/nodes/retrieval.py`. -/
structure RetrievalState where
  query : String := ""
  document_types : Option (List String) := none
  categories : Option (List String) := none
  limit : Nat := 10
  postgres_results : List Candidate := []
  vector_results : List Candidate := []
  hybrid_results : List Candidate := []
  reranked_results : List Candidate := []
  final_results : List FinalResult := []
  error : Option String := none
deriving Repr

/-! ### Python dict semantics for `combined_map`

A Python dict keyed by `str`: assignment to an existing key replaces the value
in place (keeping the key's insertion position); assignment to a fresh key
appends.  `combined_map.values()` enumerates values in insertion order. -/

abbrev CombinedMap := List (String × Candidate)

def dictLookup (m : CombinedMap) (k : String) : Option Candidate :=
  (m.find? (fun p => p.1 = k)).map (·.2)

def dictInsert (m : CombinedMap) (k : String) (v : Candidate) : CombinedMap :=
  if m.any (fun p => p.1 = k) then
    m.map (fun p => if p.1 = k then (k, v) else p)
  else
    m ++ [(k, v)]

/-! ### `RetrievalNode.combine_results` -/

/-- Step 1 of `combine_results`: `combined_map[doc_id] = result` for each
PostgreSQL result.  Note: no `combined_score` key is written here. -/
def seedLexical (postgres : List Candidate) : CombinedMap :=
  postgres.foldl (fun m r => dictInsert m r.id r) []

/-- The merge branch of `combine_results` for an id already in the map. -/
def mergeVector (existing r : Candidate) : Candidate :=
  { existing with
    vector_score := some r.score,
    combined_score := some ((existing.score + r.score) / 2),
    search_type := some "hybrid" }

/-- The insert branch of `combine_results` for a fresh vector id:
`result["combined_score"] = result["score"]`. -/
def insertVector (r : Candidate) : Candidate :=
  { r with combined_score := some r.score }

/-- Step 2 of `combine_results`: fold the vector results into the map. -/
def addVector (m : CombinedMap) (vector : List Candidate) : CombinedMap :=
  vector.foldl (fun m r =>
    match dictLookup m r.id with
    | some existing => dictInsert m r.id (mergeVector existing r)
    | none => dictInsert m r.id (insertVector r)) m

/-- The sort key of `combine_results`: `x.get("combined_score", 0)`. -/
def sortKey (c : Candidate) : ℚ := c.combined_score.getD 0

/-- `a` may come before `b` in the fused ordering: Python's
`sort(key=..., reverse=True)` is a stable descending sort. -/
def fuseOrder (a b : Candidate) : Prop := sortKey b ≤ sortKey a

instance : DecidableRel fuseOrder := fun a b =>
  inferInstanceAs (Decidable (sortKey b ≤ sortKey a))

/-- `RetrievalNode.combine_results` on the two result lists: build the map,
take its values, stable-sort descending by `get("combined_score", 0)`,
truncate to `limit`. -/
def fuseResults (postgres vector : List Candidate) (limit : Nat) : List Candidate :=
  let m := addVector (seedLexical postgres) vector
  ((m.map (·.2)).insertionSort fuseOrder).take limit

def combine_results (st : RetrievalState) : RetrievalState :=
  { st with hybrid_results := fuseResults st.postgres_results st.vector_results st.limit }

/-! ### `BGEReranker` (`core/embeddings/reranker.py`)

`self.model` is `None` when loading failed (`unavailable`); when loaded,
`compute_score` either raises (`failing`) or returns one score per
`[query, doc]` pair (`available f`, one score per document). -/

inductive RerankModel where
  | unavailable
  | failing
  | available (score : String → String → ℚ)

def RerankModel.is_available : RerankModel → Bool
  | .unavailable => false
  | .failing => true
  | .available _ => true

/-- The fallback of `BGEReranker.rerank`:
`[(i, 1.0, doc) for i, doc in enumerate(documents[:top_k])]`. -/
def passThrough (documents : List String) (top_k : Nat) : List (Nat × ℚ × String) :=
  (documents.take top_k).enum.map (fun p => (p.1, (1 : ℚ), p.2))

/-- Ordering of `scored_docs.sort(key=lambda x: x[1], reverse=True)`. -/
def scoreOrder (a b : Nat × ℚ × String) : Prop := b.2.1 ≤ a.2.1

instance : DecidableRel scoreOrder := fun a b =>
  inferInstanceAs (Decidable (b.2.1 ≤ a.2.1))

/-- `BGEReranker.rerank`: pass-through when the model is missing or
`compute_score` raises; otherwise score, stable-sort descending, truncate. -/
def rerank (model : RerankModel) (query : String) (documents : List String)
    (top_k : Nat) : List (Nat × ℚ × String) :=
  match model with
  | .unavailable => passThrough documents top_k
  | .failing => passThrough documents top_k
  | .available f =>
    let scores := documents.map (f query)
    let scored_docs := (scores.zip documents).enum.map (fun p => (p.1, p.2.1, p.2.2))
    (scored_docs.insertionSort scoreOrder).take top_k

/-- `contents = [doc.get(content_key, "") for doc in documents]` with the
pipeline's `content_key = "content"`. -/
def extractContents (documents : List Candidate) : List String :=
  documents.map (fun d => d.content.getD "")

/-- `BGEReranker.rerank_with_metadata`. -/
def rerank_with_metadata (model : RerankModel) (query : String)
    (documents : List Candidate) (top_k : Nat) : List Candidate :=
  if documents.isEmpty then []
  else
    (rerank model query (extractContents documents) top_k).filterMap
      (fun t => (documents.get? t.1).map (fun d => { d with rerank_score := some t.2.1 }))

/-- `RetrievalNode.rerank_results`. -/
def rerank_results (model : RerankModel) (st : RetrievalState) : RetrievalState :=
  if st.hybrid_results.isEmpty then { st with reranked_results := [] }
  else if ¬ model.is_available then { st with reranked_results := st.hybrid_results }
  else
    { st with reranked_results :=
        rerank_with_metadata model st.query st.hybrid_results st.limit }

/-! ### `RetrievalNode.finalize_results` -/

/-- `result.get("rerank_score", result.get("combined_score", result.get("score", 0)))`. -/
def getScore (rs cs ss : Option ℚ) : ℚ :=
  ((rs.orElse fun _ => cs).orElse fun _ => ss).getD 0

/-- The `content_preview` expression of `finalize_results`. -/
def contentPreview (c : String) : String :=
  if 500 < c.length then c.take 500 ++ "..." else c

/-- One formatted entry (`final_result` for index `i`). -/
def formatResult (i : Nat) (r : Candidate) : FinalResult :=
  { rank := i + 1,
    id := r.id,
    title := r.title.getD "",
    content_preview := contentPreview (r.content.getD ""),
    full_content := r.content.getD "",
    document_type := r.document_type.getD "",
    category := r.category.getD "",
    source := r.source.getD "",
    relevance_score := getScore r.rerank_score r.combined_score (some r.score),
    search_type := r.search_type.getD "unknown" }

def finalize_results (st : RetrievalState) : RetrievalState :=
  { st with final_results := st.reranked_results.enum.map (fun p => formatResult p.1 p.2) }

/-! ### `VectorStoreManager.search_documents` and `RetrievalNode.search_vector_store` -/

/-- A raw hit returned by the Chroma collection query. -/
structure VecHit where
  id : String
  document : String
  metadata : String
  distance : ℚ
deriving Repr

/-- The dict built per hit: keys `id`, `document`, `metadata`, `score` only;
`score = 1 - distance`. -/
def formatHit (h : VecHit) : Candidate :=
  { id := h.id, document := some h.document, metadata := some h.metadata,
    score := 1 - h.distance }

/-- `VectorStoreManager.search_documents`: the whole body is wrapped in
`try/except` returning `[]`, so an embedding failure or an index-query
failure yields the empty list and no exception escapes. -/
def search_documents (embed : String → Except String (List ℚ))
    (queryIndex : List ℚ → Nat → Except String (List VecHit))
    (query : String) (n_results : Nat) : List Candidate :=
  match embed query with
  | .error _ => []
  | .ok emb =>
    match queryIndex emb n_results with
    | .error _ => []
    | .ok hits => hits.map formatHit

/-- `RetrievalNode.search_vector_store`: calls `search_documents` (which
cannot raise), tags each result with `search_type = "vector"`.  The node's
own `except` branch is unreachable, so `error` is never written. -/
def search_vector_store (embed : String → Except String (List ℚ))
    (queryIndex : List ℚ → Nat → Except String (List VecHit))
    (st : RetrievalState) : RetrievalState :=
  let tagged := (search_documents embed queryIndex st.query st.limit).map
    (fun r => { r with search_type := some "vector" })
  { st with vector_results := tagged }

/-! ### Lemmas about the dict embedding -/

theorem dictLookup_nil (k : String) : dictLookup [] k = none := rfl

theorem dictLookup_replace_self (m : CombinedMap) (k : String) (v : Candidate)
    (h : m.any (fun p => p.1 = k) = true) :
    dictLookup (m.map (fun p => if p.1 = k then (k, v) else p)) k = some v := by
  induction m with
  | nil => simp at h
  | cons p t ih =>
    by_cases hpk : p.1 = k
    · simp [dictLookup, List.find?, hpk]
    · simp only [List.any_cons, Bool.or_eq_true, decide_eq_true_eq] at h
      rcases h with h | h
      · exact absurd h hpk
      · simpa [dictLookup, List.find?, hpk] using ih h

theorem dictLookup_replace_ne (m : CombinedMap) (k k' : String) (v : Candidate)
    (h : k' ≠ k) :
    dictLookup (m.map (fun p => if p.1 = k then (k, v) else p)) k' = dictLookup m k' := by
  induction m with
  | nil => rfl
  | cons p t ih =>
    have hk' : ¬ (k = k') := fun hc => h hc.symm
    by_cases hpk : p.1 = k
    · have hp' : ¬ (p.1 = k') := by rw [hpk]; exact hk'
      unfold dictLookup
      rw [List.map_cons, if_pos hpk,
        List.find?_cons_of_neg _ (by simpa using hk'),
        List.find?_cons_of_neg _ (by simpa using hp')]
      exact ih
    · by_cases hpk' : p.1 = k'
      · unfold dictLookup
        rw [List.map_cons, if_neg hpk,
          List.find?_cons_of_pos _ (by simpa using hpk'),
          List.find?_cons_of_pos _ (by simpa using hpk')]
      · unfold dictLookup
        rw [List.map_cons, if_neg hpk,
          List.find?_cons_of_neg _ (by simpa using hpk'),
          List.find?_cons_of_neg _ (by simpa using hpk')]
        exact ih

theorem dictLookup_dictInsert_self (m : CombinedMap) (k : String) (v : Candidate) :
    dictLookup (dictInsert m k v) k = some v := by
  unfold dictInsert
  by_cases h : m.any (fun p => p.1 = k) = true
  · simpa [h] using dictLookup_replace_self m k v h
  · have hall : ∀ p ∈ m, ¬ (p.1 = k) := by
      simpa using List.any_eq_false.mp (Bool.eq_false_iff.mpr h)
    have hnone : m.find? (fun p => p.1 = k) = none :=
      List.find?_eq_none.mpr (by simpa using hall)
    simp [h, dictLookup, List.find?_append, hnone, List.find?]

theorem dictLookup_dictInsert_ne (m : CombinedMap) (k k' : String) (v : Candidate)
    (h : k' ≠ k) :
    dictLookup (dictInsert m k v) k' = dictLookup m k' := by
  unfold dictInsert
  by_cases hany : m.any (fun p => p.1 = k) = true
  · simpa [hany] using dictLookup_replace_ne m k k' v h
  · have hk' : ¬ (k = k') := fun hc => h hc.symm
    rw [if_neg hany]
    unfold dictLookup
    rw [List.find?_append, List.find?_cons_of_neg _ (by simpa using hk')]
    cases m.find? (fun p => p.1 = k') <;> simp [Option.or]

theorem length_dictInsert_of_lookup_none (m : CombinedMap) (k : String) (v : Candidate)
    (h : dictLookup m k = none) :
    (dictInsert m k v).length = m.length + 1 := by
  have hfind : m.find? (fun p => p.1 = k) = none := by
    unfold dictLookup at h
    cases hf : m.find? (fun p => p.1 = k) with
    | none => rfl
    | some p => rw [hf] at h; simp at h
  have hall : ∀ p ∈ m, ¬ (p.1 = k) := by
    simpa using List.find?_eq_none.mp hfind
  have hany : m.any (fun p => p.1 = k) = false :=
    List.any_eq_false.mpr (by simpa using hall)
  simp [dictInsert, hany]

theorem values_dictInsert_subset (m : CombinedMap) (k : String) (v : Candidate)
    (c : Candidate) (hc : c ∈ (dictInsert m k v).map (·.2)) :
    c ∈ m.map (·.2) ∨ c = v := by
  unfold dictInsert at hc
  by_cases hany : m.any (fun p => p.1 = k) = true
  · rw [if_pos hany] at hc
    simp only [List.map_map, List.mem_map, Function.comp] at hc
    obtain ⟨p, hp, hpc⟩ := hc
    by_cases hpk : p.1 = k
    · right; rw [if_pos hpk] at hpc; exact hpc.symm
    · left; rw [if_neg hpk] at hpc
      exact List.mem_map.mpr ⟨p, hp, hpc⟩
  · rw [if_neg hany] at hc
    simp only [List.map_append, List.mem_append] at hc
    rcases hc with hc | hc
    · left; exact hc
    · right; simpa using hc

/-- Well-formedness of `combined_map`: keys are pairwise distinct and each
value's `id` is its key (every insertion in `combine_results` uses
`combined_map[result["id"]]`). -/
def MapWF (m : CombinedMap) : Prop :=
  ((m.map (·.1)).Nodup) ∧ ∀ p ∈ m, p.2.id = p.1

theorem mapWF_nil : MapWF [] := ⟨List.nodup_nil, by simp⟩

theorem mapWF_dictInsert (m : CombinedMap) (k : String) (v : Candidate)
    (hWF : MapWF m) (hv : v.id = k) : MapWF (dictInsert m k v) := by
  unfold dictInsert
  by_cases hany : m.any (fun p => p.1 = k) = true
  · rw [if_pos hany]
    constructor
    · have hkeys : (m.map (fun p => if p.1 = k then (k, v) else p)).map (·.1)
          = m.map (·.1) := by
        rw [List.map_map]
        apply List.map_congr_left
        intro p _
        by_cases hpk : p.1 = k
        · simp [Function.comp, hpk]
        · simp [Function.comp, hpk]
      rw [hkeys]; exact hWF.1
    · intro p hp
      obtain ⟨q, hq, hqp⟩ := List.mem_map.mp hp
      by_cases hqk : q.1 = k
      · rw [if_pos hqk] at hqp; rw [← hqp]; exact hv
      · rw [if_neg hqk] at hqp; rw [← hqp]; exact hWF.2 q hq
  · rw [if_neg hany]
    have hknotin : k ∉ m.map (·.1) := by
      intro hmem
      obtain ⟨p, hp, hpk⟩ := List.mem_map.mp hmem
      exact hany (List.any_eq_true.mpr ⟨p, hp, by simpa using hpk⟩)
    constructor
    · rw [List.map_append]
      simp only [List.map_cons, List.map_nil]
      rw [List.nodup_append]
      refine ⟨hWF.1, List.nodup_singleton k, ?_⟩
      intro a ha hak
      rw [List.mem_singleton] at hak
      exact hknotin (hak ▸ ha)
    · intro p hp
      rcases List.mem_append.mp hp with hp | hp
      · exact hWF.2 p hp
      · simp only [List.mem_singleton] at hp
        rw [hp]; exact hv

theorem dictLookup_id (m : CombinedMap) (k : String) (c : Candidate)
    (hWF : MapWF m) (h : dictLookup m k = some c) : c.id = k := by
  unfold dictLookup at h
  cases hf : m.find? (fun p => p.1 = k) with
  | none => rw [hf] at h; simp at h
  | some q =>
    rw [hf] at h
    simp only [Option.map_some', Option.some_inj] at h
    have hq : q ∈ m := List.mem_of_find?_eq_some hf
    have hqk : q.1 = k := by simpa using List.find?_some hf
    rw [← h, hWF.2 q hq, hqk]

theorem mem_values_eq_of_lookup (m : CombinedMap) (e w : Candidate)
    (hWF : MapWF m) (he : e ∈ m.map (·.2)) (hlk : dictLookup m e.id = some w) :
    e = w := by
  obtain ⟨p, hp, hpe⟩ := List.mem_map.mp he
  unfold dictLookup at hlk
  cases hf : m.find? (fun p => p.1 = e.id) with
  | none => rw [hf] at hlk; simp at hlk
  | some q =>
    rw [hf] at hlk
    simp only [Option.map_some', Option.some_inj] at hlk
    have hq : q ∈ m := List.mem_of_find?_eq_some hf
    have hqk : q.1 = e.id := by simpa using List.find?_some hf
    have hpk : p.1 = e.id := by rw [← hWF.2 p hp, hpe]
    have hpq : p = q :=
      List.inj_on_of_nodup_map hWF.1 hp hq (by rw [hpk, hqk])
    rw [← hlk, ← hpq, hpe]

/-! ### Characterizing the combined map built by `combine_results` -/

theorem seed_go_lookup (L : List Candidate) (m : CombinedMap) (X : String) :
    dictLookup (L.foldl (fun m r => dictInsert m r.id r) m) X =
      match L.reverse.find? (fun r => r.id = X) with
      | some c => some c
      | none => dictLookup m X := by
  induction L generalizing m with
  | nil => simp
  | cons r L ih =>
    rw [List.foldl_cons, ih]
    rw [List.reverse_cons, List.find?_append]
    cases h : L.reverse.find? (fun r => r.id = X) with
    | some c => simp [Option.or]
    | none =>
      by_cases hr : r.id = X
      · have h1 : List.find? (fun c => decide (c.id = X)) [r] = some r := by
          simp [List.find?_cons, hr]
        rw [h1]
        show dictLookup (dictInsert m r.id r) X = some r
        rw [← hr, dictLookup_dictInsert_self]
      · have h1 : List.find? (fun c => decide (c.id = X)) [r] = none := by
          simp [List.find?_cons, hr]
        rw [h1]
        show dictLookup (dictInsert m r.id r) X = dictLookup m X
        exact dictLookup_dictInsert_ne m r.id X r (fun hc => hr hc.symm)

theorem seedLexical_lookup (L : List Candidate) (X : String) :
    dictLookup (seedLexical L) X =
      match L.reverse.find? (fun r => r.id = X) with
      | some c => some c
      | none => none :=
  seed_go_lookup L [] X

theorem find?_reverse_of_nodup (L : List Candidate) (X : String)
    (h : (L.map (·.id)).Nodup) :
    L.reverse.find? (fun r => r.id = X) = L.find? (fun r => r.id = X) := by
  induction L with
  | nil => rfl
  | cons r L ih =>
    rw [List.reverse_cons, List.find?_append]
    simp only [List.map_cons, List.nodup_cons] at h
    rw [ih h.2]
    by_cases hr : r.id = X
    · have hnot : ∀ c ∈ L, ¬ ((fun c => decide (c.id = X)) c = true) := by
        intro c hc
        simp only [decide_eq_true_eq]
        intro hcx
        exact h.1 (List.mem_map.mpr ⟨c, hc, hcx.trans hr.symm⟩)
      rw [List.find?_eq_none.mpr hnot]
      have h1 : List.find? (fun c => decide (c.id = X)) [r] = some r := by
        simp [List.find?_cons, hr]
      have h2 : List.find? (fun c => decide (c.id = X)) (r :: L) = some r := by
        simp [List.find?_cons, hr]
      rw [h1, h2]
      rfl
    · have h1 : List.find? (fun c => decide (c.id = X)) [r] = none := by
        simp [List.find?_cons, hr]
      have h2 : List.find? (fun c => decide (c.id = X)) (r :: L)
          = List.find? (fun c => decide (c.id = X)) L := by
        simp [List.find?_cons, hr]
      rw [h1, h2]
      cases L.find? (fun r => r.id = X) <;> simp [Option.or]

theorem addVector_lookup (V : List Candidate) (m : CombinedMap) (X : String)
    (hV : (V.map (·.id)).Nodup) :
    dictLookup (addVector m V) X =
      match V.find? (fun r => r.id = X) with
      | some v => some (match dictLookup m X with
          | some ex => mergeVector ex v
          | none => insertVector v)
      | none => dictLookup m X := by
  induction V generalizing m with
  | nil => simp [addVector]
  | cons r V ih =>
    simp only [List.map_cons, List.nodup_cons] at hV
    have hstep : addVector m (r :: V) =
        addVector (match dictLookup m r.id with
          | some ex => dictInsert m r.id (mergeVector ex r)
          | none => dictInsert m r.id (insertVector r)) V := rfl
    rw [hstep, ih _ hV.2]
    by_cases hr : r.id = X
    · have hnot : ∀ c ∈ V, ¬ ((fun c => decide (c.id = X)) c = true) := by
        intro c hc
        simp only [decide_eq_true_eq]
        intro hcx
        exact hV.1 (List.mem_map.mpr ⟨c, hc, hcx.trans hr.symm⟩)
      rw [List.find?_eq_none.mpr hnot]
      have h2 : List.find? (fun c => decide (c.id = X)) (r :: V) = some r := by
        simp [List.find?_cons, hr]
      rw [h2, ← hr]
      cases hlk : dictLookup m r.id with
      | some ex =>
        show dictLookup (dictInsert m r.id (mergeVector ex r)) r.id = _
        rw [dictLookup_dictInsert_self]
      | none =>
        show dictLookup (dictInsert m r.id (insertVector r)) r.id = _
        rw [dictLookup_dictInsert_self]
    · have h2 : List.find? (fun c => decide (c.id = X)) (r :: V)
          = List.find? (fun c => decide (c.id = X)) V := by
        simp [List.find?_cons, hr]
      rw [h2]
      have hpres : dictLookup (match dictLookup m r.id with
          | some ex => dictInsert m r.id (mergeVector ex r)
          | none => dictInsert m r.id (insertVector r)) X = dictLookup m X := by
        cases hlk : dictLookup m r.id with
        | some ex => exact dictLookup_dictInsert_ne m r.id X _ (fun hc => hr hc.symm)
        | none => exact dictLookup_dictInsert_ne m r.id X _ (fun hc => hr hc.symm)
      rw [hpres]

theorem mapWF_seed_go (L : List Candidate) (m : CombinedMap) (hWF : MapWF m) :
    MapWF (L.foldl (fun m r => dictInsert m r.id r) m) := by
  induction L generalizing m with
  | nil => exact hWF
  | cons r L ih =>
    rw [List.foldl_cons]
    exact ih _ (mapWF_dictInsert m r.id r hWF rfl)

theorem mapWF_seedLexical (L : List Candidate) : MapWF (seedLexical L) :=
  mapWF_seed_go L [] mapWF_nil

theorem mapWF_addVector (V : List Candidate) (m : CombinedMap) (hWF : MapWF m) :
    MapWF (addVector m V) := by
  induction V generalizing m with
  | nil => exact hWF
  | cons r V ih =>
    have hstep : addVector m (r :: V) =
        addVector (match dictLookup m r.id with
          | some ex => dictInsert m r.id (mergeVector ex r)
          | none => dictInsert m r.id (insertVector r)) V := rfl
    rw [hstep]
    apply ih
    cases hlk : dictLookup m r.id with
    | some ex =>
      have hid : ex.id = r.id := dictLookup_id m r.id ex hWF hlk
      exact mapWF_dictInsert m r.id _ hWF (by simpa [mergeVector] using hid)
    | none => exact mapWF_dictInsert m r.id _ hWF rfl

theorem mem_fuseResults_mem_values (L V : List Candidate) (lim : Nat)
    (e : Candidate) (he : e ∈ fuseResults L V lim) :
    e ∈ (addVector (seedLexical L) V).map (·.2) := by
  unfold fuseResults at he
  have h1 := List.mem_of_mem_take he
  exact (List.perm_insertionSort fuseOrder _).mem_iff.mp h1

theorem seed_go_length (L : List Candidate) (m : CombinedMap)
    (hnd : (L.map (·.id)).Nodup) (hfresh : ∀ r ∈ L, dictLookup m r.id = none) :
    (L.foldl (fun m r => dictInsert m r.id r) m).length = m.length + L.length := by
  induction L generalizing m with
  | nil => simp
  | cons r L ih =>
    simp only [List.map_cons, List.nodup_cons] at hnd
    rw [List.foldl_cons]
    have hlen : (dictInsert m r.id r).length = m.length + 1 :=
      length_dictInsert_of_lookup_none m r.id r (hfresh r (List.mem_cons_self r L))
    have hfresh' : ∀ r' ∈ L, dictLookup (dictInsert m r.id r) r'.id = none := by
      intro r' hr'
      have hne : r'.id ≠ r.id := fun hc =>
        hnd.1 (List.mem_map.mpr ⟨r', hr', hc.symm ▸ rfl⟩)
      rw [dictLookup_dictInsert_ne m r.id r'.id r hne]
      exact hfresh r' (List.mem_cons_of_mem r hr')
    rw [ih _ hnd.2 hfresh', hlen]
    simp only [List.length_cons]
    omega

theorem addVector_length (V : List Candidate) (m : CombinedMap)
    (hnd : (V.map (·.id)).Nodup) (hfresh : ∀ r ∈ V, dictLookup m r.id = none) :
    (addVector m V).length = m.length + V.length := by
  induction V generalizing m with
  | nil => simp [addVector]
  | cons r V ih =>
    simp only [List.map_cons, List.nodup_cons] at hnd
    have hlk : dictLookup m r.id = none := hfresh r (List.mem_cons_self r V)
    have hstep : addVector m (r :: V) =
        addVector (dictInsert m r.id (insertVector r)) V := by
      show addVector (match dictLookup m r.id with
        | some ex => dictInsert m r.id (mergeVector ex r)
        | none => dictInsert m r.id (insertVector r)) V = _
      rw [hlk]
    have hlen : (dictInsert m r.id (insertVector r)).length = m.length + 1 :=
      length_dictInsert_of_lookup_none m r.id _ hlk
    have hfresh' : ∀ r' ∈ V, dictLookup (dictInsert m r.id (insertVector r)) r'.id = none := by
      intro r' hr'
      have hne : r'.id ≠ r.id := fun hc =>
        hnd.1 (List.mem_map.mpr ⟨r', hr', hc.symm ▸ rfl⟩)
      rw [dictLookup_dictInsert_ne m r.id r'.id _ hne]
      exact hfresh r' (List.mem_cons_of_mem r hr')
    rw [hstep, ih _ hnd.2 hfresh', hlen]
    simp only [List.length_cons]
    omega

theorem seed_go_values (L : List Candidate) (m : CombinedMap) (c : Candidate)
    (hc : c ∈ (L.foldl (fun m r => dictInsert m r.id r) m).map (·.2)) :
    c ∈ m.map (·.2) ∨ c ∈ L := by
  induction L generalizing m with
  | nil => exact Or.inl hc
  | cons r L ih =>
    rw [List.foldl_cons] at hc
    rcases ih _ hc with hm | hL
    · rcases values_dictInsert_subset m r.id r c hm with hm' | hr
      · exact Or.inl hm'
      · exact Or.inr (hr ▸ List.mem_cons_self r L)
    · exact Or.inr (List.mem_cons_of_mem r hL)

theorem seedLexical_values (L : List Candidate) (c : Candidate)
    (hc : c ∈ (seedLexical L).map (·.2)) : c ∈ L := by
  rcases seed_go_values L [] c hc with hm | hL
  · simp at hm
  · exact hL

instance : IsTotal Candidate fuseOrder :=
  ⟨fun a b => le_total (sortKey b) (sortKey a)⟩

instance : IsTrans Candidate fuseOrder :=
  ⟨fun _ _ _ hab hbc => le_trans hbc hab⟩

/-- The fused list is sorted descending by `get("combined_score", 0)`. -/
theorem fuseResults_sorted (L V : List Candidate) (lim : Nat) :
    (fuseResults L V lim).Sorted fuseOrder :=
  List.Pairwise.sublist (List.take_sublist _ _)
    (List.sorted_insertionSort fuseOrder _)

theorem fuseResults_length_le (L V : List Candidate) (lim : Nat) :
    (fuseResults L V lim).length ≤ lim :=
  List.length_take_le _ _

/-! ### The spec's scenario: lexical `{A, B}` at 1.0, vector `{B: 0.8, C: 0.6}` -/

def candA : Candidate := { id := "A", score := 1, search_type := some "postgres" }

def candB : Candidate := { id := "B", score := 1, search_type := some "postgres" }

def vecB : Candidate :=
  { id := "B", document := some "docB", score := 8/10, search_type := some "vector" }

def vecC : Candidate :=
  { id := "C", document := some "docC", score := 6/10, search_type := some "vector" }

def pgEx : List Candidate := [candA, candB]

def vecEx : List Candidate := [vecB, vecC]

/-- Evaluating `combine_results` on the scenario: `B` fuses to `0.9` hybrid,
`C` enters at `0.6`, while `A` keeps no `combined_score` key, so its sort key
defaults to `0` and it sinks to the last position. -/
theorem scenario_fused :
    fuseResults pgEx vecEx 10 = [mergeVector candB vecB, insertVector vecC, candA] := by
  have hAB : (("A" : String) = "B") = False := by simp
  norm_num [fuseResults, addVector, seedLexical, dictInsert, dictLookup, insertVector,
    mergeVector, candA, candB, vecB, vecC, pgEx, vecEx, List.insertionSort,
    List.orderedInsert, fuseOrder, sortKey, hAB]

/-- The same with `limit = 2`: `A` is truncated away. -/
theorem scenario_fused_two :
    fuseResults pgEx vecEx 2 = [mergeVector candB vecB, insertVector vecC] := by
  have hAB : (("A" : String) = "B") = False := by simp
  norm_num [fuseResults, addVector, seedLexical, dictInsert, dictLookup, insertVector,
    mergeVector, candA, candB, vecB, vecC, pgEx, vecEx, List.insertionSort,
    List.orderedInsert, fuseOrder, sortKey, hAB]

/-- C1: the claim is false on the code.  Seeding does not copy the lexical
score into `combined_score` (entry `A` has no `combined_score` at all), so in
the spec's scenario the fused order is `[B, C, A]`, not `[A, B, C]`, and with
`limit = 2` the fused list is `[B, C]`, not `[A, B]`. -/
theorem C1_fusion_scenario_counterexample :
    (fuseResults pgEx vecEx 10).map (·.id) = ["B", "C", "A"]
    ∧ (fuseResults pgEx vecEx 10).map (·.id) ≠ ["A", "B", "C"]
    ∧ (fuseResults pgEx vecEx 2).map (·.id) ≠ ["A", "B"]
    ∧ ((fuseResults pgEx vecEx 10).find? (fun c => c.id = "A")).map (·.combined_score)
      = some none := by
  rw [scenario_fused, scenario_fused_two]
  refine ⟨?_, ?_, ?_, ?_⟩ <;>
    simp [mergeVector, insertVector, candA, candB, vecB, vecC, List.find?_cons]

/-- C1 (amended): fusion seeds the map with every lexical candidate verbatim
(in particular without writing a `combined_score`); the fused list is ordered
descending by `combined_score` defaulting to `0` for lexical-only entries; on
the spec's scenario this yields `[B(0.9 hybrid), C(0.6), A]` and `[B, C]`
with `limit = 2`. -/
theorem C1_fusion_scenario_amended :
    (∀ L V lim, ((fuseResults L V lim).Sorted fuseOrder))
    ∧ (∀ L c, c ∈ (seedLexical L).map (·.2) → c ∈ L)
    ∧ fuseResults pgEx vecEx 10 = [mergeVector candB vecB, insertVector vecC, candA]
    ∧ (fuseResults pgEx vecEx 10).map (·.id) = ["B", "C", "A"]
    ∧ (fuseResults pgEx vecEx 2).map (·.id) = ["B", "C"] := by
  refine ⟨fuseResults_sorted, seedLexical_values, scenario_fused, ?_, ?_⟩
  · rw [scenario_fused]
    simp [mergeVector, insertVector, candA, candB, vecB, vecC]
  · rw [scenario_fused_two]
    simp [mergeVector, insertVector, candB, vecB, vecC]

theorem C1_fusion_scenario_amended_witness : candA ∈ pgEx := by
  have h := C1_fusion_scenario_amended.2.1 pgEx candA
  apply h
  have hAB : (("A" : String) = "B") = False := by simp
  simp [seedLexical, dictInsert, pgEx, candA, candB, hAB]

/-- C2: a candidate id `X` present in both lists (lexical entry `cl`, vector
entry `cv`) is fused with `combined_score = (cl.score + cv.score) / 2` and
`search_type = "hybrid"`; a vector-only id enters with `combined_score`
equal to its vector score. -/
theorem C2_hybrid_mean (L V : List Candidate) (limit : Nat) (X : String)
    (hL : (L.map (·.id)).Nodup) (hV : (V.map (·.id)).Nodup) :
    (∀ cl cv, L.find? (fun r => r.id = X) = some cl →
      V.find? (fun r => r.id = X) = some cv →
      ∀ e ∈ fuseResults L V limit, e.id = X →
        e.combined_score = some ((cl.score + cv.score) / 2) ∧
        e.search_type = some "hybrid")
    ∧ (∀ cv, L.find? (fun r => r.id = X) = none →
      V.find? (fun r => r.id = X) = some cv →
      ∀ e ∈ fuseResults L V limit, e.id = X →
        e.combined_score = some cv.score) := by
  have hWF : MapWF (addVector (seedLexical L) V) :=
    mapWF_addVector V _ (mapWF_seedLexical L)
  constructor
  · intro cl cv hfl hfv e he hex
    have hseed : dictLookup (seedLexical L) X = some cl := by
      rw [seedLexical_lookup, find?_reverse_of_nodup L X hL, hfl]
    have hlk : dictLookup (addVector (seedLexical L) V) X = some (mergeVector cl cv) := by
      rw [addVector_lookup V _ X hV]
      simp only [hfv, hseed]
    have hmem := mem_fuseResults_mem_values L V limit e he
    have heq : e = mergeVector cl cv :=
      mem_values_eq_of_lookup _ e (mergeVector cl cv) hWF hmem (by rw [hex]; exact hlk)
    rw [heq]
    exact ⟨rfl, rfl⟩
  · intro cv hfl hfv e he hex
    have hseed : dictLookup (seedLexical L) X = none := by
      rw [seedLexical_lookup, find?_reverse_of_nodup L X hL, hfl]
    have hlk : dictLookup (addVector (seedLexical L) V) X = some (insertVector cv) := by
      rw [addVector_lookup V _ X hV]
      simp only [hfv, hseed]
    have hmem := mem_fuseResults_mem_values L V limit e he
    have heq : e = insertVector cv :=
      mem_values_eq_of_lookup _ e (insertVector cv) hWF hmem (by rw [hex]; exact hlk)
    rw [heq]
    rfl

theorem C2_hybrid_mean_witness :
    (mergeVector candB vecB).combined_score = some ((candB.score + vecB.score) / 2)
    ∧ (mergeVector candB vecB).search_type = some "hybrid" := by
  have hAB : (("A" : String) = "B") = False := by simp
  have hL : (pgEx.map (·.id)).Nodup := by simp [pgEx, candA, candB]
  have hV : (vecEx.map (·.id)).Nodup := by simp [vecEx, vecB, vecC]
  have hfl : pgEx.find? (fun r => r.id = "B") = some candB := by
    simp [pgEx, List.find?_cons, candA, candB, hAB]
  have hfv : vecEx.find? (fun r => r.id = "B") = some vecB := by
    simp [vecEx, List.find?_cons, vecB, vecC]
  have hmem : mergeVector candB vecB ∈ fuseResults pgEx vecEx 10 := by
    rw [scenario_fused]
    exact List.mem_cons_self _ _
  exact (C2_hybrid_mean pgEx vecEx 10 "B" hL hV).1 candB vecB hfl hfv
    (mergeVector candB vecB) hmem rfl

/-- The fused list never contains two entries with the same id: it is drawn
from the values of a map keyed by id. -/
theorem fuseResults_ids_nodup (L V : List Candidate) (limit : Nat) :
    ((fuseResults L V limit).map (·.id)).Nodup := by
  have hWF : MapWF (addVector (seedLexical L) V) :=
    mapWF_addVector V _ (mapWF_seedLexical L)
  have hvals : ((addVector (seedLexical L) V).map (·.2)).map (·.id)
      = (addVector (seedLexical L) V).map (·.1) := by
    rw [List.map_map]
    exact List.map_congr_left (fun p hp => hWF.2 p hp)
  have h1 : (((addVector (seedLexical L) V).map (·.2)).map (·.id)).Nodup := by
    rw [hvals]; exact hWF.1
  have hperm :
      List.Perm (((addVector (seedLexical L) V).map (·.2)).insertionSort fuseOrder)
        ((addVector (seedLexical L) V).map (·.2)) :=
    List.perm_insertionSort _ _
  have h2 : ((((addVector (seedLexical L) V).map (·.2)).insertionSort fuseOrder).map
      (·.id)).Nodup := ((hperm.map (·.id)).nodup_iff).mpr h1
  have h3 : (fuseResults L V limit).map (·.id)
      = ((((addVector (seedLexical L) V).map (·.2)).insertionSort fuseOrder).map
          (·.id)).take limit := by
    show ((((addVector (seedLexical L) V).map (·.2)).insertionSort
      fuseOrder).take limit).map (·.id) = _
    rw [List.map_take]
  rw [h3]
  exact h2.sublist (List.take_sublist _ _)

/-- Positions of a duplicate-free-by-id list that hold candidates with equal
ids are equal. -/
theorem get?_id_inj (docs : List Candidate) (hdocs : (docs.map (·.id)).Nodup)
    (i j : Nat) (d d' : Candidate) (hi : docs.get? i = some d)
    (hj : docs.get? j = some d') (hid : d.id = d'.id) : i = j := by
  have hmi : (docs.map (·.id)).get? i = some d.id := by
    rw [List.get?_map, hi]; rfl
  have hmj : (docs.map (·.id)).get? j = some d'.id := by
    rw [List.get?_map, hj]; rfl
  have hlt : i < (docs.map (·.id)).length := by
    by_contra hcon
    rw [List.get?_eq_none.mpr (le_of_not_lt hcon)] at hmi
    exact Option.noConfusion hmi
  apply List.get?_inj hlt hdocs
  rw [hmi, hmj, hid]

/-- The id list of `rerank_with_metadata`'s reconstruction loop is
duplicate-free whenever the scored triples carry duplicate-free original
indices and the source candidates have duplicate-free ids. -/
theorem filterMap_rerank_ids_nodup (docs : List Candidate)
    (hdocs : (docs.map (·.id)).Nodup) :
    ∀ ts : List (Nat × ℚ × String), (ts.map (·.1)).Nodup →
    ((ts.filterMap (fun t => (docs.get? t.1).map
        (fun d => { d with rerank_score := some t.2.1 }))).map (·.id)).Nodup := by
  intro ts
  induction ts with
  | nil => intro _; simp
  | cons t ts ih =>
    intro hnd
    simp only [List.map_cons, List.nodup_cons] at hnd
    rw [List.filterMap_cons]
    cases hget : docs.get? t.1 with
    | none => exact ih hnd.2
    | some d =>
      simp only [Option.map_some']
      rw [List.map_cons, List.nodup_cons]
      refine ⟨?_, ih hnd.2⟩
      intro hmem
      obtain ⟨e, he, heid⟩ := List.mem_map.mp hmem
      obtain ⟨t', ht', hte⟩ := List.mem_filterMap.mp he
      cases hget' : docs.get? t'.1 with
      | none => rw [hget'] at hte; exact Option.noConfusion hte
      | some d' =>
        rw [hget'] at hte
        simp only [Option.map_some', Option.some_inj] at hte
        have hd'id : d'.id = d.id := by rw [← heid, ← hte]
        have hidx : t'.1 = t.1 := get?_id_inj docs hdocs t'.1 t.1 d' d hget' hget hd'id
        exact hnd.1 (hidx ▸ List.mem_map.mpr ⟨t', ht', rfl⟩)

theorem passThrough_fst_nodup (contentsList : List String) (k : Nat) :
    ((passThrough contentsList k).map (·.1)).Nodup := by
  unfold passThrough
  rw [List.map_map]
  have hcomp : ((fun t : Nat × ℚ × String => t.1) ∘
      fun p : Nat × String => (p.1, (1 : ℚ), p.2)) = Prod.fst := rfl
  rw [hcomp, List.enum_map_fst]
  exact List.nodup_range _

/-- Every branch of `BGEReranker.rerank` returns triples with pairwise
distinct original indices. -/
theorem rerank_fst_nodup (model : RerankModel) (q : String) (docs : List String)
    (k : Nat) : ((rerank model q docs k).map (·.1)).Nodup := by
  cases model with
  | unavailable => exact passThrough_fst_nodup docs k
  | failing => exact passThrough_fst_nodup docs k
  | available f =>
    have h0 : ((((docs.map (f q)).zip docs).enum.map
        (fun p => (p.1, p.2.1, p.2.2))).map (·.1)).Nodup := by
      rw [List.map_map]
      have hcomp : ((fun t : Nat × ℚ × String => t.1) ∘
          fun p : Nat × (ℚ × String) => (p.1, p.2.1, p.2.2)) = Prod.fst := rfl
      rw [hcomp, List.enum_map_fst]
      exact List.nodup_range _
    have hperm := (List.perm_insertionSort scoreOrder
      (((docs.map (f q)).zip docs).enum.map (fun p => (p.1, p.2.1, p.2.2)))).map
      (fun t : Nat × ℚ × String => t.1)
    have h1 := hperm.nodup_iff.mpr h0
    show ((((((docs.map (f q)).zip docs).enum.map
      (fun p => (p.1, p.2.1, p.2.2))).insertionSort scoreOrder).take k).map
        (·.1)).Nodup
    rw [List.map_take]
    exact h1.sublist (List.take_sublist _ _)

/-- Reranking preserves id-distinctness end to end. -/
theorem rerank_with_metadata_ids_nodup (model : RerankModel) (q : String)
    (docs : List Candidate) (k : Nat) (hdocs : (docs.map (·.id)).Nodup) :
    ((rerank_with_metadata model q docs k).map (·.id)).Nodup := by
  unfold rerank_with_metadata
  by_cases h : docs.isEmpty
  · rw [if_pos h]; simp
  · rw [if_neg h]
    exact filterMap_rerank_ids_nodup docs hdocs _
      (rerank_fst_nodup model q (extractContents docs) k)

/-- Formatting preserves the id list verbatim. -/
theorem finalize_ids (s : RetrievalState) :
    (finalize_results s).final_results.map (·.id)
      = s.reranked_results.map (·.id) := by
  show ((s.reranked_results.enum.map (fun p => formatResult p.1 p.2)).map (·.id)) = _
  rw [List.map_map]
  have h1 : ((fun f : FinalResult => f.id) ∘ fun p : Nat × Candidate => formatResult p.1 p.2)
      = ((fun c : Candidate => c.id) ∘ Prod.snd) := rfl
  rw [h1, ← List.map_map, List.enum_map_snd]

/-- Id-distinctness survives the rerank and format stages of a pipeline run. -/
theorem pipeline_ids_nodup (model : RerankModel) (st : RetrievalState) :
    ((rerank_results model (combine_results st)).reranked_results.map (·.id)).Nodup
    ∧ ((finalize_results (rerank_results model (combine_results st))).final_results.map
        (·.id)).Nodup := by
  have hhy : ((combine_results st).hybrid_results.map (·.id)).Nodup :=
    fuseResults_ids_nodup st.postgres_results st.vector_results st.limit
  have hr : ((rerank_results model (combine_results st)).reranked_results.map
      (·.id)).Nodup := by
    unfold rerank_results
    by_cases h1 : (combine_results st).hybrid_results.isEmpty
    · rw [if_pos h1]; simp
    · rw [if_neg h1]
      by_cases h2 : model.is_available = true
      · rw [if_neg (not_not_intro h2)]
        exact rerank_with_metadata_ids_nodup model _ _ _ hhy
      · rw [if_pos h2]
        exact hhy
  refine ⟨hr, ?_⟩
  rw [finalize_ids]
  exact hr

/-- C5: candidate ids are pairwise distinct in the fused list and in every
later stage of a single pipeline run (the reranked list — for every reranker
mode — and the formatted list); and for disjoint lexical and vector inputs
whose combined size fits in the limit, the fused list has exactly
`|L| + |V|` elements. -/
theorem C5_no_duplicate_ids (L V : List Candidate) (limit : Nat) :
    ((fuseResults L V limit).map (·.id)).Nodup
    ∧ ((L.map (·.id)).Nodup → (V.map (·.id)).Nodup →
      (∀ r ∈ V, ∀ s ∈ L, r.id ≠ s.id) →
      L.length + V.length ≤ limit →
      (fuseResults L V limit).length = L.length + V.length)
    ∧ (∀ (model : RerankModel) (st : RetrievalState),
      ((rerank_results model (combine_results st)).reranked_results.map (·.id)).Nodup
      ∧ ((finalize_results (rerank_results model (combine_results st))).final_results.map
          (·.id)).Nodup) := by
  refine ⟨fuseResults_ids_nodup L V limit, ?_, fun model st => pipeline_ids_nodup model st⟩
  intro hL hV hdisj hlen
  have hseedlen : (seedLexical L).length = L.length := by
    have h := seed_go_length L [] hL (fun r _ => rfl)
    simpa [seedLexical] using h
  have hfresh : ∀ r ∈ V, dictLookup (seedLexical L) r.id = none := by
    intro r hr
    rw [seedLexical_lookup, find?_reverse_of_nodup L _ hL]
    have hnone : L.find? (fun c => decide (c.id = r.id)) = none := by
      apply List.find?_eq_none.mpr
      intro s hs
      simp only [decide_eq_true_eq]
      intro hsr
      exact hdisj r hr s hs (hsr ▸ rfl)
    rw [hnone]
  have hmlen : (addVector (seedLexical L) V).length = L.length + V.length := by
    rw [addVector_length V _ hV hfresh, hseedlen]
  have hsl : (((addVector (seedLexical L) V).map (·.2)).insertionSort
      fuseOrder).length = L.length + V.length := by
    rw [(List.perm_insertionSort fuseOrder _).length_eq, List.length_map, hmlen]
  show ((((addVector (seedLexical L) V).map (·.2)).insertionSort
    fuseOrder).take limit).length = _
  rw [List.take_of_length_le (by rw [hsl]; exact hlen), hsl]

theorem C5_no_duplicate_ids_witness :
    ((fuseResults [candA] [vecC] 10).map (·.id)).Nodup
    ∧ (fuseResults [candA] [vecC] 10).length = 2 := by
  refine ⟨(C5_no_duplicate_ids [candA] [vecC] 10).1, ?_⟩
  have h := (C5_no_duplicate_ids [candA] [vecC] 10).2.1
  have hd : ∀ r ∈ [vecC], ∀ s ∈ [candA], r.id ≠ s.id := by
    simp [vecC, candA]
  simpa using h (by simp) (by simp) hd (by norm_num)

/-! ### The reranker fallback path -/

theorem passThrough_filterMap (l₀ : List Candidate) :
    ∀ (n : Nat) (l : List Candidate),
    (∀ i, i < l.length → l₀.get? (n + i) = l.get? i) →
    ((((l.map (fun d => d.content.getD "")).enumFrom n).map
        (fun p => (p.1, (1 : ℚ), p.2))).filterMap
      (fun t => (l₀.get? t.1).map (fun d => { d with rerank_score := some t.2.1 })))
    = l.map (fun d => { d with rerank_score := some (1 : ℚ) }) := by
  intro n l
  induction l generalizing n with
  | nil => intro _; rfl
  | cons d l ih =>
    intro h
    have hstep : ((d.content.getD "" :: l.map (fun d => d.content.getD "")).enumFrom n)
        = (n, d.content.getD "") :: ((l.map (fun d => d.content.getD "")).enumFrom (n+1)) :=
      rfl
    rw [List.map_cons, hstep, List.map_cons, List.filterMap_cons]
    have hd : l₀.get? n = some d := by
      have h0 := h 0 (by simp)
      rw [Nat.add_zero] at h0
      simpa using h0
    rw [hd]
    have htail : ∀ i, i < l.length → l₀.get? (n + 1 + i) = l.get? i := by
      intro i hi
      have h1 := h (i + 1) (by simpa using Nat.succ_lt_succ hi)
      have harith : n + (i + 1) = n + 1 + i := by omega
      rw [harith] at h1
      simpa using h1
    rw [ih (n + 1) htail]
    rfl

/-- C3: with the model unavailable, `rerank_with_metadata` returns the first
`top_k` candidates in their original relative order, each assigned
`rerank_score = 1.0`; the underlying `rerank` likewise passes through
`documents[:top_k]` with score `1.0`; and `is_available()` is false exactly
when the model is missing. -/
theorem C3_degraded_passthrough :
    (∀ (q : String) (C : List Candidate) (N : Nat),
      rerank_with_metadata .unavailable q C N
        = (C.take N).map (fun d => { d with rerank_score := some (1 : ℚ) }))
    ∧ (∀ (q : String) (docs : List String) (N : Nat),
      rerank .unavailable q docs N
        = (docs.take N).enum.map (fun p => (p.1, (1 : ℚ), p.2)))
    ∧ (∀ m : RerankModel, m.is_available = false ↔ m = .unavailable) := by
  refine ⟨?_, fun q docs N => rfl, ?_⟩
  · intro q C N
    by_cases hC : C.isEmpty
    · have hnil : C = [] := by
        cases C with
        | nil => rfl
        | cons a l => simp at hC
      rw [hnil]
      simp [rerank_with_metadata]
    · unfold rerank_with_metadata
      rw [if_neg hC]
      show ((((extractContents C).take N).enum.map
          (fun p => (p.1, (1 : ℚ), p.2))).filterMap
        (fun t => (C.get? t.1).map (fun d => { d with rerank_score := some t.2.1 }))) = _
      unfold extractContents
      rw [← List.map_take]
      show (((((C.take N).map (fun d => d.content.getD "")).enumFrom 0).map
          (fun p => (p.1, (1 : ℚ), p.2))).filterMap
        (fun t => (C.get? t.1).map (fun d => { d with rerank_score := some t.2.1 }))) = _
      apply passThrough_filterMap C 0 (C.take N)
      intro i hi
      rw [Nat.zero_add]
      have h1 : (C.take N).length ≤ N := List.length_take_le _ _
      exact (List.get?_take (Nat.lt_of_lt_of_le hi h1)).symm
  · intro m
    cases m <;> simp [RerankModel.is_available]

/-! ### Length bounds through the pipeline -/

theorem rerank_length_le (model : RerankModel) (q : String) (docs : List String)
    (k : Nat) : (rerank model q docs k).length ≤ k := by
  cases model with
  | unavailable =>
    show (passThrough docs k).length ≤ k
    unfold passThrough
    rw [List.length_map, List.enum_length]
    exact List.length_take_le _ _
  | failing =>
    show (passThrough docs k).length ≤ k
    unfold passThrough
    rw [List.length_map, List.enum_length]
    exact List.length_take_le _ _
  | available f =>
    exact List.length_take_le _ _

theorem rerank_with_metadata_length_le (model : RerankModel) (q : String)
    (docs : List Candidate) (k : Nat) :
    (rerank_with_metadata model q docs k).length ≤ k := by
  unfold rerank_with_metadata
  by_cases h : docs.isEmpty
  · rw [if_pos h]; simp
  · rw [if_neg h]
    calc ((rerank model q (extractContents docs) k).filterMap
          (fun t => (docs.get? t.1).map (fun d => { d with rerank_score := some t.2.1 }))).length
        ≤ (rerank model q (extractContents docs) k).length :=
          List.length_filterMap_le _ _
      _ ≤ k := rerank_length_le model q _ k

theorem finalize_length (s : RetrievalState) :
    (finalize_results s).final_results.length = s.reranked_results.length := by
  show (s.reranked_results.enum.map (fun p => formatResult p.1 p.2)).length = _
  rw [List.length_map, List.enum_length]

/-- C6: the composed pipeline `format(rerank(fuse(L, V, limit=N)))` returns at
most `N` results, for every reranker mode (missing model, model that raises
while scoring, and working model). -/
theorem C6_truncation_bound (model : RerankModel) (st : RetrievalState) :
    (finalize_results (rerank_results model (combine_results st))).final_results.length
      ≤ st.limit := by
  rw [finalize_length]
  unfold rerank_results
  by_cases h1 : (combine_results st).hybrid_results.isEmpty
  · rw [if_pos h1]; simp
  · rw [if_neg h1]
    by_cases h2 : model.is_available = true
    · rw [if_neg (not_not_intro h2)]
      show (rerank_with_metadata model (combine_results st).query
        (combine_results st).hybrid_results (combine_results st).limit).length ≤ st.limit
      exact rerank_with_metadata_length_le model _ _ _
    · rw [if_pos h2]
      show (fuseResults st.postgres_results st.vector_results st.limit).length ≤ st.limit
      exact fuseResults_length_le _ _ _

/-- C7: each formatted result's `relevance_score` is resolved
first-available-wins through `rerank_score`, then `combined_score`, then the
stage `score`, then `0.0` — exactly the nested
`result.get("rerank_score", result.get("combined_score", result.get("score", 0)))`. -/
theorem C7_relevance_resolution :
    (∀ (st : RetrievalState) (i : Nat),
      ((finalize_results st).final_results.get? i).map (·.relevance_score)
        = (st.reranked_results.get? i).map
            (fun r => getScore r.rerank_score r.combined_score (some r.score)))
    ∧ (∀ (a : ℚ) (cs ss : Option ℚ), getScore (some a) cs ss = a)
    ∧ (∀ (b : ℚ) (ss : Option ℚ), getScore none (some b) ss = b)
    ∧ (∀ c : ℚ, getScore none none (some c) = c)
    ∧ getScore none none none = 0 := by
  refine ⟨?_, fun a cs ss => rfl, fun b ss => rfl, fun c => rfl, rfl⟩
  intro st i
  show ((st.reranked_results.enum.map (fun p => formatResult p.1 p.2)).get? i).map
    (·.relevance_score) = _
  rw [List.get?_map, List.enum_get?]
  cases st.reranked_results.get? i <;> simp [formatResult]

/-- C8: `content_preview` is the first 500 characters plus the `"..."` marker
when the content is longer than 500 characters, and the content verbatim
otherwise. -/
theorem C8_preview_truncation :
    (∀ (st : RetrievalState) (i : Nat),
      ((finalize_results st).final_results.get? i).map (·.content_preview)
        = (st.reranked_results.get? i).map
            (fun r => contentPreview (r.content.getD "")))
    ∧ (∀ c : String, 500 < c.length → contentPreview c = c.take 500 ++ "...")
    ∧ (∀ c : String, c.length ≤ 500 → contentPreview c = c) := by
  refine ⟨?_, ?_, ?_⟩
  · intro st i
    show ((st.reranked_results.enum.map (fun p => formatResult p.1 p.2)).get? i).map
      (·.content_preview) = _
    rw [List.get?_map, List.enum_get?]
    cases st.reranked_results.get? i <;> simp [formatResult]
  · intro c h
    unfold contentPreview
    rw [if_pos h]
  · intro c h
    unfold contentPreview
    rw [if_neg (by omega)]

def s600 : String := String.mk (List.replicate 600 'a')

def s400 : String := String.mk (List.replicate 400 'b')

theorem C8_preview_truncation_witness :
    contentPreview s600 = s600.take 500 ++ "..." ∧ contentPreview s400 = s400 := by
  have h6 : s600.length = 600 := by
    show (String.mk (List.replicate 600 'a')).length = 600
    rw [String.length]
    exact List.length_replicate 600 'a'
  have h4 : s400.length = 400 := by
    show (String.mk (List.replicate 400 'b')).length = 400
    rw [String.length]
    exact List.length_replicate 400 'b'
  exact ⟨C8_preview_truncation.2.1 s600 (by omega),
    C8_preview_truncation.2.2 s400 (by omega)⟩

/-- C9: on empty lexical and vector results, fusion yields `[]`, reranking
yields `[]` regardless of the model (which is therefore never consulted),
formatting yields `[]`, and the `error` field stays `none`. -/
theorem C9_empty_inputs (model : RerankModel) (st : RetrievalState)
    (h1 : st.postgres_results = []) (h2 : st.vector_results = [])
    (h3 : st.error = none) :
    (combine_results st).hybrid_results = []
    ∧ (rerank_results model (combine_results st)).reranked_results = []
    ∧ (finalize_results (rerank_results model (combine_results st))).final_results = []
    ∧ (finalize_results (rerank_results model (combine_results st))).error = none := by
  have hc : (combine_results st).hybrid_results = [] := by
    show fuseResults st.postgres_results st.vector_results st.limit = []
    rw [h1, h2]
    simp [fuseResults, addVector, seedLexical]
  have hr : (rerank_results model (combine_results st)).reranked_results = [] := by
    unfold rerank_results
    rw [if_pos (by rw [hc]; rfl)]
  have hf : (finalize_results (rerank_results model (combine_results st))).final_results
      = [] := by
    show ((rerank_results model (combine_results st)).reranked_results.enum.map
      (fun p => formatResult p.1 p.2)) = []
    rw [hr]
    rfl
  have herr1 : ∀ s : RetrievalState, (rerank_results model s).error = s.error := by
    intro s
    unfold rerank_results
    split
    · rfl
    · split <;> rfl
  have herr : (finalize_results (rerank_results model (combine_results st))).error
      = none := by
    show (rerank_results model (combine_results st)).error = none
    rw [herr1]
    exact h3
  exact ⟨hc, hr, hf, herr⟩

def stEmpty : RetrievalState := {}

theorem C9_empty_inputs_witness :
    (combine_results stEmpty).hybrid_results = []
    ∧ (rerank_results .failing (combine_results stEmpty)).reranked_results = []
    ∧ (finalize_results (rerank_results .failing (combine_results stEmpty))).final_results
      = []
    ∧ (finalize_results (rerank_results .failing (combine_results stEmpty))).error
      = none :=
  C9_empty_inputs .failing stEmpty rfl rfl rfl

/-! ### Failure handling of the vector branch -/

def embedFail : String → Except String (List ℚ) := fun _ => .error "embedding failure"

def embedOk : String → Except String (List ℚ) := fun _ => .ok []

def indexEmpty : List ℚ → Nat → Except String (List VecHit) := fun _ _ => .ok []

def indexFail : List ℚ → Nat → Except String (List VecHit) := fun _ _ => .error "index failure"

def stQuery : RetrievalState := { query := "contract dispute", limit := 5 }

/-- C4: the claim is false on the code.  An embedding failure or an
index-query failure is swallowed inside `VectorStoreManager.search_documents`
(which returns `[]`), so `search_vector_store` completes normally and the
pipeline state's `error` field stays `none` — not non-empty as claimed. -/
theorem C4_error_recording_counterexample :
    (search_vector_store embedFail indexEmpty stQuery).error = none
    ∧ (search_vector_store embedFail indexEmpty stQuery).vector_results = []
    ∧ (search_vector_store embedOk indexFail stQuery).error = none
    ∧ (search_vector_store embedOk indexFail stQuery).vector_results = [] :=
  ⟨rfl, rfl, rfl, rfl⟩

/-- C4 (amended): an embedding or index-query failure degrades the vector
stage to an empty result list and the pipeline proceeds, but the failure is
recorded only inside the vector store (caught and logged there); the pipeline
state's `error` field is left unchanged, so it is not set by such failures. -/
theorem C4_error_not_recorded_amended
    (embed : String → Except String (List ℚ))
    (queryIndex : List ℚ → Nat → Except String (List VecHit))
    (st : RetrievalState) :
    (∀ e, embed st.query = .error e →
      (search_vector_store embed queryIndex st).vector_results = []
      ∧ (search_vector_store embed queryIndex st).error = st.error)
    ∧ (∀ emb e, embed st.query = .ok emb → queryIndex emb st.limit = .error e →
      (search_vector_store embed queryIndex st).vector_results = []
      ∧ (search_vector_store embed queryIndex st).error = st.error)
    ∧ (search_vector_store embed queryIndex st).error = st.error := by
  have hsd1 : ∀ e, embed st.query = .error e →
      search_documents embed queryIndex st.query st.limit = [] := by
    intro e he
    unfold search_documents
    rw [he]
  have hsd2 : ∀ emb e, embed st.query = .ok emb → queryIndex emb st.limit = .error e →
      search_documents embed queryIndex st.query st.limit = [] := by
    intro emb e hok herr
    unfold search_documents
    rw [hok]
    show (match queryIndex emb st.limit with
      | Except.error _ => []
      | Except.ok hits => hits.map formatHit) = []
    rw [herr]
  refine ⟨?_, ?_, rfl⟩
  · intro e he
    refine ⟨?_, rfl⟩
    simp [search_vector_store, hsd1 e he]
  · intro emb e hok herr
    refine ⟨?_, rfl⟩
    simp [search_vector_store, hsd2 emb e hok herr]

theorem C4_error_not_recorded_amended_witness :
    (search_vector_store embedFail indexEmpty stQuery).vector_results = []
    ∧ (search_vector_store embedFail indexEmpty stQuery).error = stQuery.error :=
  (C4_error_not_recorded_amended embedFail indexEmpty stQuery).1 "embedding failure" rfl

/-- C10: the vector adapter emits candidates carrying only
`id`/`document`/`metadata`/`score` (no `title`, `content`, `document_type`,
`category` or `source` key); formatting such a candidate yields empty strings
for all those fields (and an empty `content_preview`/`full_content`), and the
content extracted for reranking is the empty string. -/
theorem C10_vector_only_fields :
    (∀ (embed : String → Except String (List ℚ))
      (queryIndex : List ℚ → Nat → Except String (List VecHit))
      (q : String) (n : Nat),
      ∀ c ∈ search_documents embed queryIndex q n,
        c.title = none ∧ c.content = none ∧ c.document_type = none
        ∧ c.category = none ∧ c.source = none)
    ∧ (∀ (st : RetrievalState) (i : Nat) (r : Candidate),
      st.reranked_results.get? i = some r →
      r.title = none → r.content = none → r.document_type = none →
      r.category = none → r.source = none →
      ((finalize_results st).final_results.get? i).map
          (fun f => (f.title, f.content_preview, f.full_content,
            f.document_type, f.category, f.source))
        = some ("", "", "", "", "", ""))
    ∧ (∀ (docs : List Candidate) (i : Nat) (r : Candidate),
      docs.get? i = some r → r.content = none →
      (extractContents docs).get? i = some "") := by
  have hshape : ∀ (embed : String → Except String (List ℚ))
      (queryIndex : List ℚ → Nat → Except String (List VecHit)) (q : String) (n : Nat),
      search_documents embed queryIndex q n = [] ∨
      ∃ hits : List VecHit,
        search_documents embed queryIndex q n = hits.map formatHit := by
    intro embed queryIndex q n
    unfold search_documents
    cases embed q with
    | error e => exact Or.inl rfl
    | ok emb =>
      show (match queryIndex emb n with
          | Except.error _ => []
          | Except.ok hits => hits.map formatHit) = [] ∨
        ∃ hits : List VecHit,
          (match queryIndex emb n with
            | Except.error _ => []
            | Except.ok hits => hits.map formatHit) = hits.map formatHit
      cases queryIndex emb n with
      | error e => exact Or.inl rfl
      | ok hits => exact Or.inr ⟨hits, rfl⟩
  refine ⟨?_, ?_, ?_⟩
  · intro embed queryIndex q n c hc
    rcases hshape embed queryIndex q n with heq | ⟨hits, heq⟩
    · rw [heq] at hc; simp at hc
    · rw [heq] at hc
      obtain ⟨h, _, hhc⟩ := List.mem_map.mp hc
      rw [← hhc]
      exact ⟨rfl, rfl, rfl, rfl, rfl⟩
  · intro st i r hget ht hcon hd hcat hs
    show ((st.reranked_results.enum.map (fun p => formatResult p.1 p.2)).get? i).map
      (fun f => (f.title, f.content_preview, f.full_content,
        f.document_type, f.category, f.source)) = _
    rw [List.get?_map, List.enum_get?, hget]
    simp [formatResult, ht, hcon, hd, hcat, hs, contentPreview]
  · intro docs i r hget hcon
    unfold extractContents
    rw [List.get?_map, hget]
    simp [hcon]

def hitEx : VecHit := { id := "C", document := "docC", metadata := "m", distance := 2/5 }

def idxOne : List ℚ → Nat → Except String (List VecHit) := fun _ _ => .ok [hitEx]

def stVec : RetrievalState := { reranked_results := [formatHit hitEx] }

theorem C10_vector_only_fields_witness :
    ((formatHit hitEx).title = none ∧ (formatHit hitEx).content = none
      ∧ (formatHit hitEx).document_type = none ∧ (formatHit hitEx).category = none
      ∧ (formatHit hitEx).source = none)
    ∧ ((finalize_results stVec).final_results.get? 0).map
        (fun f => (f.title, f.content_preview, f.full_content,
          f.document_type, f.category, f.source))
      = some ("", "", "", "", "", "")
    ∧ (extractContents [formatHit hitEx]).get? 0 = some "" := by
  refine ⟨?_, ?_, ?_⟩
  · have hsd : search_documents embedOk idxOne "q" 3 = [formatHit hitEx] := rfl
    exact C10_vector_only_fields.1 embedOk idxOne "q" 3 (formatHit hitEx)
      (by rw [hsd]; exact List.mem_singleton_self _)
  · exact C10_vector_only_fields.2.1 stVec 0 (formatHit hitEx) rfl rfl rfl rfl rfl rfl
  · exact C10_vector_only_fields.2.2 [formatHit hitEx] 0 (formatHit hitEx) rfl rfl

end RawJJS
